import Mathlib

/-!
Shallow embedding of the khudiiash/super-events listener registry.

Primary source: src/src/SuperEvents.ts (class SuperEvents: on, once, off,
emit, call, callAsync, first, firstAsync, private _addListener).
The repository also ships historical variants in src/src/SuperEvents.js; the
singleton variant there additionally has a sync-strict emit, an emitAsync and
a clear method, embedded below under the SuperEventsV3 prefix.

Modelling conventions:
* JS runtime values are JSVal; a promise that eventually fulfills with v is
  JSVal.vpromise v.  Awaiting (Promise.resolve + Promise.all / then) is
  JSVal.settle, which follows promise adoption recursively.
* A listener callback is identified by a Nat (its reference identity: the
  strict equality used by off compares references, so two distinct closures
  never compare equal; distinct Nats model distinct references).  The actual
  behaviour of the callbacks lives in an environment Impl: running callback
  id on an argument either throws (Except.error e, modelling a synchronous
  JS throw of value e) or returns a value (Except.ok v, where v may be a
  promise).
* The private field events : Map<string, ListenerEntry[]> is an association
  list with the usual Map operations (mapHas/mapGet/mapSet/mapDelete).
* The for-loops of emit/call splice out consumed once-entries in place and
  compensate with i-- ; the net effect is a single front-to-back traversal
  that visits every entry exactly once, drops the consumed once entries from
  the array and stops at the first synchronous throw (or, for sync-strict
  dispatch, at the first promise-valued result).  callLoop/emitLoop are that
  traversal; besides the result they return the final contents of the
  (mutated-in-place) array and the trace of invoked callback ids.
-/

inductive JSVal : Type where
  | vnull : JSVal
  | vundef : JSVal
  | vbool : Bool → JSVal
  | vnum : Int → JSVal
  | vstr : String → JSVal
  | vpromise : JSVal → JSVal
deriving DecidableEq, Repr

/-- The dynamic check result instanceof Promise. -/
def JSVal.isPromise : JSVal → Bool
  | .vpromise _ => true
  | _ => false

/-- Awaiting a value: Promise.resolve(v) followed by settlement; promise
adoption chains through nested promises. -/
def JSVal.settle : JSVal → JSVal
  | .vpromise v => v.settle
  | v => v

/-- The predicate of results.find(r => r != null && r != undefined): loose
inequality with null is false exactly for null and undefined (the second
conjunct is redundant in JS and here). -/
def jsNotNullish : JSVal → Bool
  | .vnull => false
  | .vundef => false
  | _ => true

/-- interface ListenerEntry { callback; once } with the callback kept as its
reference identity. -/
structure ListenerEntry : Type where
  callback : Nat
  once : Bool
deriving DecidableEq, Repr

abbrev Channel := List ListenerEntry

abbrev EventMap := List (String × Channel)

/-- Environment giving each callback reference its behaviour: throw a JS
value or return one. -/
abbrev Impl := Nat → JSVal → Except JSVal JSVal

/-- Map.has -/
def mapHas (m : EventMap) (k : String) : Bool :=
  match m with
  | [] => false
  | p :: rest => p.1 == k || mapHas rest k

/-- Map.get (the code always guards with has, so absent keys returning []
is never observed). -/
def mapGet (m : EventMap) (k : String) : Channel :=
  match m with
  | [] => []
  | p :: rest => if p.1 == k then p.2 else mapGet rest k

/-- Map.set: overwrite the binding if the key is present, else append. -/
def mapSet (m : EventMap) (k : String) (v : Channel) : EventMap :=
  match m with
  | [] => [(k, v)]
  | p :: rest => if p.1 == k then (k, v) :: rest else p :: mapSet rest k v

/-- Map.delete (keys are unique in reachable states, so removing the first
binding is removal of the binding). -/
def mapDelete (m : EventMap) (k : String) : EventMap :=
  match m with
  | [] => []
  | p :: rest => if p.1 == k then rest else p :: mapDelete rest k

/-- Array.prototype.findIndex, as an Option instead of the -1 sentinel. -/
def chanFindIdx (p : ListenerEntry → Bool) : Channel → Option Nat
  | [] => none
  | en :: rest => if p en then some 0 else (chanFindIdx p rest).map (· + 1)

/-- splice(idx, 1) -/
def chanEraseIdx : Channel → Nat → Channel
  | [], _ => []
  | _ :: rest, 0 => rest
  | en :: rest, n + 1 => en :: chanEraseIdx rest n

/-- Errors a dispatch can propagate: the Error thrown by sync-strict
dispatch on an async listener (the AsyncListenerMisuseError of the spec;
the source messages are
"SuperEvents: call() cannot be used with async listeners. ..." and
"SuperEvents: emit() cannot be used with async listeners. ..."), or a value
thrown synchronously by a listener itself. -/
inductive DispatchError : Type where
  | asyncMisuse : DispatchError
  | listenerThrew : JSVal → DispatchError
deriving DecidableEq, Repr

deriving instance DecidableEq for Except

structure SuperEvents : Type where
  events : EventMap
deriving DecidableEq, Repr

/-- new SuperEvents(): events = new Map() -/
def SuperEvents.empty : SuperEvents := ⟨[]⟩

/-- What a dispatch method produces: its return value or thrown error, the
registry afterwards, and the trace of callback ids invoked (in order). -/
structure DispatchResult (α : Type) : Type where
  result : Except DispatchError α
  state : SuperEvents
  invoked : List Nat
deriving DecidableEq, Repr

structure LoopOut : Type where
  res : Except DispatchError (List JSVal)
  rem : Channel
  inv : List Nat
deriving DecidableEq, Repr

/-- The loop of SuperEvents.call (SuperEvents.ts lines 88-99): invoke the
listener, throw on a promise-valued result, push the result, splice out a
consumed once entry (index-adjusted). rem is the array as left behind,
inv the invocation trace. -/
def callLoop (impl : Impl) (arg : JSVal) : Channel → LoopOut
  | [] => ⟨.ok [], [], []⟩
  | en :: rest =>
    match impl en.callback arg with
    | .error ex => ⟨.error (.listenerThrew ex), en :: rest, [en.callback]⟩
    | .ok v =>
      if v.isPromise then ⟨.error .asyncMisuse, en :: rest, [en.callback]⟩
      else
        let t := callLoop impl arg rest
        ⟨t.res.map (fun vs => v :: vs),
         if en.once then t.rem else en :: t.rem,
         en.callback :: t.inv⟩

/-- The loop of SuperEvents.emit (SuperEvents.ts lines 65-72): push
Promise.resolve(callback(...args)) — settled at the final Promise.all —
and splice out consumed once entries.  A synchronous throw aborts the loop
and rejects. -/
def emitLoop (impl : Impl) (arg : JSVal) : Channel → LoopOut
  | [] => ⟨.ok [], [], []⟩
  | en :: rest =>
    match impl en.callback arg with
    | .error ex => ⟨.error (.listenerThrew ex), en :: rest, [en.callback]⟩
    | .ok v =>
      let t := emitLoop impl arg rest
      ⟨t.res.map (fun vs => v.settle :: vs),
       if en.once then t.rem else en :: t.rem,
       en.callback :: t.inv⟩

/-- After the loop the map holds the mutated array; only a normally
completed dispatch reaches the trailing
if (listeners.length === 0) this.events.delete(event). -/
def applyDispatch {α : Type} (st : SuperEvents) (event : String)
    (res : Except DispatchError α) (rem : Channel) : SuperEvents :=
  match res with
  | .ok _ => if rem.isEmpty then ⟨mapDelete st.events event⟩
             else ⟨mapSet st.events event rem⟩
  | .error _ => ⟨mapSet st.events event rem⟩

/-- SuperEvents.off (SuperEvents.ts lines 47-53). -/
def SuperEvents.off (st : SuperEvents) (event : String) (callback : Nat) :
    SuperEvents :=
  if mapHas st.events event = false then st
  else
    let listeners := mapGet st.events event
    let listeners' :=
      match chanFindIdx (fun en => en.callback == callback) listeners with
      | some idx => chanEraseIdx listeners idx
      | none => listeners
    if listeners'.isEmpty then ⟨mapDelete st.events event⟩
    else ⟨mapSet st.events event listeners'⟩

/-- SuperEvents._addListener (SuperEvents.ts lines 115-121): create the
channel if absent, push the entry, return the unsubscribe closure
() => this.off(event, callback). -/
def SuperEvents.addListener (st : SuperEvents) (event : String)
    (callback : Nat) (once : Bool) :
    SuperEvents × (SuperEvents → SuperEvents) :=
  let m := if mapHas st.events event = false then mapSet st.events event []
           else st.events
  (⟨mapSet m event (mapGet m event ++ [⟨callback, once⟩])⟩,
   fun s => s.off event callback)

/-- SuperEvents.on -/
def SuperEvents.on (st : SuperEvents) (event : String) (callback : Nat) :
    SuperEvents × (SuperEvents → SuperEvents) :=
  st.addListener event callback false

/-- SuperEvents.once -/
def SuperEvents.once (st : SuperEvents) (event : String) (callback : Nat) :
    SuperEvents × (SuperEvents → SuperEvents) :=
  st.addListener event callback true

/-- SuperEvents.call (SuperEvents.ts lines 84-102). -/
def SuperEvents.call (impl : Impl) (st : SuperEvents) (event : String)
    (arg : JSVal) : DispatchResult (List JSVal) :=
  if mapHas st.events event = false then ⟨.ok [], st, []⟩
  else
    let t := callLoop impl arg (mapGet st.events event)
    ⟨t.res, applyDispatch st event t.res t.rem, t.inv⟩

/-- SuperEvents.emit (SuperEvents.ts lines 61-75): async-tolerant, returns
the settled results via Promise.all. -/
def SuperEvents.emit (impl : Impl) (st : SuperEvents) (event : String)
    (arg : JSVal) : DispatchResult (List JSVal) :=
  if mapHas st.events event = false then ⟨.ok [], st, []⟩
  else
    let t := emitLoop impl arg (mapGet st.events event)
    ⟨t.res, applyDispatch st event t.res t.rem, t.inv⟩

/-- SuperEvents.callAsync (SuperEvents.ts lines 110-113): awaits emit and
returns its results. -/
def SuperEvents.callAsync (impl : Impl) (st : SuperEvents) (event : String)
    (arg : JSVal) : DispatchResult (List JSVal) :=
  SuperEvents.emit impl st event arg

/-- SuperEvents.first (SuperEvents.ts lines 129-135).  call always returns
an array, so the Array.isArray branch is the one taken; a throw from call
propagates. -/
def SuperEvents.first (impl : Impl) (st : SuperEvents) (event : String)
    (arg : JSVal) : DispatchResult JSVal :=
  let r := SuperEvents.call impl st event arg
  ⟨r.result.map (fun results => ((results.find? jsNotNullish).getD .vundef)),
   r.state, r.invoked⟩

/-- SuperEvents.firstAsync (SuperEvents.ts lines 143-148): on the settled
emit results, return results[0] when exactly one, else the first
non-nullish. -/
def SuperEvents.firstAsync (impl : Impl) (st : SuperEvents) (event : String)
    (arg : JSVal) : DispatchResult JSVal :=
  let r := SuperEvents.emit impl st event arg
  ⟨r.result.map (fun results =>
      if results.length == 1 then results.getD 0 .vundef
      else ((results.find? jsNotNullish).getD .vundef)),
   r.state, r.invoked⟩

/-- The sync-strict emit of the singleton variant in src/src/SuperEvents.js
(lines 565-580): same loop body as call — invoke, throw on a promise-valued
result, splice consumed once entries — but no result is collected. -/
def SuperEventsV3.emit (impl : Impl) (st : SuperEvents) (event : String)
    (data : JSVal) : DispatchResult Unit :=
  if mapHas st.events event = false then ⟨.ok (), st, []⟩
  else
    let t := callLoop impl data (mapGet st.events event)
    ⟨t.res.map (fun _ => ()), applyDispatch st event t.res t.rem, t.inv⟩

/-- emitAsync of the same variant (src/src/SuperEvents.js lines 588-602):
async-tolerant, awaits all listeners, surfaces no results. -/
def SuperEventsV3.emitAsync (impl : Impl) (st : SuperEvents) (event : String)
    (data : JSVal) : DispatchResult Unit :=
  if mapHas st.events event = false then ⟨.ok (), st, []⟩
  else
    let t := emitLoop impl data (mapGet st.events event)
    ⟨t.res.map (fun _ => ()), applyDispatch st event t.res t.rem, t.inv⟩

/-- clear of the same variant (src/src/SuperEvents.js lines 702-704):
this.events.clear(). -/
def SuperEventsV3.clear (_st : SuperEvents) : SuperEvents := ⟨[]⟩

/-- A sequence of on registrations of the given callbacks on one event,
starting from a fresh registry. -/
def registerAll (event : String) (cbs : List Nat) : SuperEvents :=
  cbs.foldl (fun st cb => (st.on event cb).1) SuperEvents.empty

/-- One dispatch step, for quantifying over arbitrary dispatch sequences. -/
inductive DispatchOp : Type where
  | opCall : String → JSVal → DispatchOp
  | opEmit : String → JSVal → DispatchOp
  | opCallAsync : String → JSVal → DispatchOp
  | opFirst : String → JSVal → DispatchOp
  | opFirstAsync : String → JSVal → DispatchOp
deriving DecidableEq, Repr

def runOp (impl : Impl) (st : SuperEvents) : DispatchOp → SuperEvents × List Nat
  | .opCall e a =>
      ((SuperEvents.call impl st e a).state, (SuperEvents.call impl st e a).invoked)
  | .opEmit e a =>
      ((SuperEvents.emit impl st e a).state, (SuperEvents.emit impl st e a).invoked)
  | .opCallAsync e a =>
      ((SuperEvents.callAsync impl st e a).state, (SuperEvents.callAsync impl st e a).invoked)
  | .opFirst e a =>
      ((SuperEvents.first impl st e a).state, (SuperEvents.first impl st e a).invoked)
  | .opFirstAsync e a =>
      ((SuperEvents.firstAsync impl st e a).state, (SuperEvents.firstAsync impl st e a).invoked)

def runOps (impl : Impl) : List DispatchOp → SuperEvents → SuperEvents × List Nat
  | [], st => (st, [])
  | op :: rest, st =>
    let p := runOp impl st op
    let q := runOps impl rest p.1
    (q.1, p.2 ++ q.2)

/-- Number of entries of a channel whose callback is the given reference. -/
def chanCount (es : Channel) (id : Nat) : Nat :=
  es.countP (fun en => en.callback == id)

def mapCount (m : EventMap) (id : Nat) : Nat :=
  (m.map (fun p => chanCount p.2 id)).sum

/-- Number of registered entries holding the given callback reference,
across the whole registry. -/
def stateCount (st : SuperEvents) (id : Nat) : Nat :=
  mapCount st.events id

/-- Every entry holding the given callback reference is a once entry. -/
def onceOnly (st : SuperEvents) (id : Nat) : Prop :=
  ∀ p ∈ st.events, ∀ en ∈ p.2, en.callback = id → en.once = true

/-- The registry invariant: no event name is bound to an empty listener
list. -/
def noEmptyChannel (st : SuperEvents) : Prop :=
  ∀ p ∈ st.events, p.2 ≠ []

/-- Reachable registries never bind the same event name twice. -/
def keysNodup (st : SuperEvents) : Prop :=
  (st.events.map Prod.fst).Nodup

/-- The value first.result yields, characterised as the spec words it: the
leftmost result that is neither null nor undefined, or the absent sentinel
(undefined) when no result qualifies. -/
def isLeftmostNonNullish (rs : List JSVal) (v : JSVal) : Prop :=
  (∃ pre post, rs = pre ++ v :: post ∧ (∀ r ∈ pre, jsNotNullish r = false) ∧
      jsNotNullish v = true) ∨
  (v = .vundef ∧ ∀ r ∈ rs, jsNotNullish r = false)

/-! ## Lemmas about the Map model -/

theorem mapGet_eq_nil_of_not_has (m : EventMap) (k : String)
    (h : mapHas m k = false) : mapGet m k = [] := by
  induction m with
  | nil => rfl
  | cons p rest ih =>
    simp only [mapHas, Bool.or_eq_false_iff] at h
    simp only [mapGet, h.1, if_false]
    exact ih h.2

theorem mapHas_of_mapGet_ne_nil (m : EventMap) (k : String)
    (h : mapGet m k ≠ []) : mapHas m k = true := by
  cases hh : mapHas m k with
  | false => exact absurd (mapGet_eq_nil_of_not_has m k hh) h
  | true => rfl

theorem mapGet_mapSet_self (m : EventMap) (k : String) (v : Channel) :
    mapGet (mapSet m k v) k = v := by
  induction m with
  | nil => simp [mapSet, mapGet]
  | cons p rest ih =>
    by_cases h : p.1 = k
    · simp [mapSet, mapGet, h]
    · simp only [mapSet, mapGet, beq_iff_eq, h, if_false]
      exact ih

theorem mapHas_mapSet_self (m : EventMap) (k : String) (v : Channel) :
    mapHas (mapSet m k v) k = true := by
  induction m with
  | nil => simp [mapSet, mapHas]
  | cons p rest ih =>
    by_cases h : p.1 = k
    · simp [mapSet, mapHas, h]
    · simp only [mapSet, mapHas, beq_iff_eq, h, if_false]
      simp only [mapHas] at ih
      simp [ih]

theorem mapSet_mapSet_self (m : EventMap) (k : String) (u v : Channel) :
    mapSet (mapSet m k u) k v = mapSet m k v := by
  induction m with
  | nil => simp [mapSet]
  | cons p rest ih =>
    by_cases h : p.1 = k
    · simp [mapSet, h]
    · simp only [mapSet, beq_iff_eq, h, if_false]
      simp [ih]

theorem mapSet_self (m : EventMap) (k : String)
    (h : mapHas m k = true) : mapSet m k (mapGet m k) = m := by
  induction m with
  | nil => simp [mapHas] at h
  | cons p rest ih =>
    obtain ⟨pk, pv⟩ := p
    by_cases hk : pk = k
    · subst hk
      simp [mapSet, mapGet]
    · simp only [mapHas, beq_iff_eq, hk, false_or, Bool.or_eq_true] at h
      simp [mapSet, mapGet, hk, ih h]

theorem mem_mapSet (m : EventMap) (k : String) (v : Channel)
    (q : String × Channel) (h : q ∈ mapSet m k v) : q = (k, v) ∨ q ∈ m := by
  induction m with
  | nil =>
    simp only [mapSet, List.mem_singleton] at h
    exact Or.inl h
  | cons p rest ih =>
    obtain ⟨pk, pv⟩ := p
    by_cases hk : pk = k
    · subst hk
      simp only [mapSet, beq_self_eq_true, if_true, List.mem_cons] at h
      rcases h with h | h
      · exact Or.inl h
      · exact Or.inr (List.mem_cons_of_mem _ h)
    · simp only [mapSet, beq_iff_eq, hk, if_false, List.mem_cons] at h
      rcases h with h | h
      · exact Or.inr (by simp [h])
      · rcases ih h with h' | h'
        · exact Or.inl h'
        · exact Or.inr (List.mem_cons_of_mem _ h')

theorem mem_mapDelete (m : EventMap) (k : String)
    (q : String × Channel) (h : q ∈ mapDelete m k) : q ∈ m := by
  induction m with
  | nil => simp [mapDelete] at h
  | cons p rest ih =>
    by_cases hk : p.1 = k
    · simp only [mapDelete, beq_iff_eq, hk, if_true] at h
      exact List.mem_cons_of_mem _ h
    · simp only [mapDelete, beq_iff_eq, hk, if_false, List.mem_cons] at h
      rcases h with h | h
      · simp [h]
      · exact List.mem_cons_of_mem _ (ih h)

theorem mem_mapGet (m : EventMap) (k : String) (en : ListenerEntry)
    (h : en ∈ mapGet m k) : ∃ p, p ∈ m ∧ en ∈ p.2 := by
  induction m with
  | nil => simp [mapGet] at h
  | cons p rest ih =>
    by_cases hk : p.1 = k
    · simp only [mapGet, beq_iff_eq, hk, if_true] at h
      exact ⟨p, by simp, h⟩
    · simp only [mapGet, beq_iff_eq, hk, if_false] at h
      obtain ⟨q, hq, hen⟩ := ih h
      exact ⟨q, List.mem_cons_of_mem _ hq, hen⟩

theorem mapCount_mapSet (m : EventMap) (k : String) (v : Channel) (id : Nat)
    (h : mapHas m k = true) :
    mapCount (mapSet m k v) id + chanCount (mapGet m k) id
      = mapCount m id + chanCount v id := by
  induction m with
  | nil => simp [mapHas] at h
  | cons p rest ih =>
    by_cases hk : p.1 = k
    · simp only [mapSet, mapGet, beq_iff_eq, hk, if_true]
      simp only [mapCount, List.map_cons, List.sum_cons]
      omega
    · simp only [mapHas, beq_iff_eq, hk, false_or, Bool.or_eq_true] at h
      simp only [mapSet, mapGet, beq_iff_eq, hk, if_false]
      simp only [mapCount, List.map_cons, List.sum_cons] at *
      have := ih h
      omega

theorem mapCount_mapDelete (m : EventMap) (k : String) (id : Nat)
    (h : mapHas m k = true) :
    mapCount (mapDelete m k) id + chanCount (mapGet m k) id = mapCount m id := by
  induction m with
  | nil => simp [mapHas] at h
  | cons p rest ih =>
    by_cases hk : p.1 = k
    · simp only [mapDelete, mapGet, beq_iff_eq, hk, if_true]
      simp only [mapCount, List.map_cons, List.sum_cons]
      omega
    · simp only [mapHas, beq_iff_eq, hk, false_or, Bool.or_eq_true] at h
      simp only [mapDelete, mapGet, beq_iff_eq, hk, if_false]
      simp only [mapCount, List.map_cons, List.sum_cons] at *
      have := ih h
      omega

theorem mem_keys_of_mapHas (m : EventMap) (k : String)
    (h : mapHas m k = true) : k ∈ m.map Prod.fst := by
  induction m with
  | nil => simp [mapHas] at h
  | cons p rest ih =>
    simp only [mapHas, Bool.or_eq_true, beq_iff_eq] at h
    rcases h with h | h
    · simp [h]
    · simp [ih h]

theorem mapHas_mapDelete_self (m : EventMap) (k : String)
    (h : (m.map Prod.fst).Nodup) : mapHas (mapDelete m k) k = false := by
  induction m with
  | nil => rfl
  | cons p rest ih =>
    simp only [List.map_cons, List.nodup_cons] at h
    by_cases hk : p.1 = k
    · simp only [mapDelete, beq_iff_eq, hk, if_true]
      cases hh : mapHas rest k with
      | false => rfl
      | true =>
        exact absurd (hk ▸ mem_keys_of_mapHas rest k hh) h.1
    · simp only [mapDelete, mapHas, beq_iff_eq, hk, if_false]
      simp [ih h.2, hk]

/-! ## Lemmas about the dispatch loops -/

theorem callLoop_all_ok (impl : Impl) (arg : JSVal) (f : Nat → JSVal)
    (es : Channel)
    (h : ∀ en ∈ es, impl en.callback arg = .ok (f en.callback) ∧
        (f en.callback).isPromise = false) :
    callLoop impl arg es =
      ⟨.ok (es.map (fun en => f en.callback)),
       es.filter (fun en => !en.once),
       es.map (fun en => en.callback)⟩ := by
  induction es with
  | nil => rfl
  | cons en rest ih =>
    have hen := h en (by simp)
    have hrest : ∀ e ∈ rest, impl e.callback arg = .ok (f e.callback) ∧
        (f e.callback).isPromise = false :=
      fun e he => h e (List.mem_cons_of_mem _ he)
    simp only [callLoop, hen.1, hen.2]
    rw [ih hrest]
    cases hone : en.once <;> simp [List.filter_cons, hone, Except.map]

theorem emitLoop_all_ok (impl : Impl) (arg : JSVal) (f : Nat → JSVal)
    (es : Channel)
    (h : ∀ en ∈ es, impl en.callback arg = .ok (f en.callback)) :
    emitLoop impl arg es =
      ⟨.ok (es.map (fun en => (f en.callback).settle)),
       es.filter (fun en => !en.once),
       es.map (fun en => en.callback)⟩ := by
  induction es with
  | nil => rfl
  | cons en rest ih =>
    have hen := h en (by simp)
    have hrest : ∀ e ∈ rest, impl e.callback arg = .ok (f e.callback) :=
      fun e he => h e (List.mem_cons_of_mem _ he)
    simp only [emitLoop, hen]
    rw [ih hrest]
    cases hone : en.once <;> simp [List.filter_cons, hone, Except.map]

theorem callLoop_prefix_throw (impl : Impl) (arg : JSVal) (f : Nat → JSVal)
    (pre : Channel) (en : ListenerEntry) (post : Channel) (ex : JSVal)
    (hpre : ∀ p ∈ pre, impl p.callback arg = .ok (f p.callback) ∧
        (f p.callback).isPromise = false)
    (hen : impl en.callback arg = .error ex) :
    callLoop impl arg (pre ++ en :: post) =
      ⟨.error (.listenerThrew ex),
       pre.filter (fun p => !p.once) ++ en :: post,
       pre.map (fun p => p.callback) ++ [en.callback]⟩ := by
  induction pre with
  | nil => simp [callLoop, hen]
  | cons p pre' ih =>
    have hp := hpre p (by simp)
    have hpre' : ∀ q ∈ pre', impl q.callback arg = .ok (f q.callback) ∧
        (f q.callback).isPromise = false :=
      fun q hq => hpre q (List.mem_cons_of_mem _ hq)
    simp only [List.cons_append, callLoop, hp.1, hp.2]
    simp only [List.append_eq]
    rw [ih hpre']
    cases hone : p.once <;> simp [List.filter_cons, hone, Except.map]

theorem callLoop_prefix_promise (impl : Impl) (arg : JSVal) (f : Nat → JSVal)
    (pre : Channel) (en : ListenerEntry) (post : Channel) (w : JSVal)
    (hpre : ∀ p ∈ pre, impl p.callback arg = .ok (f p.callback) ∧
        (f p.callback).isPromise = false)
    (hen : impl en.callback arg = .ok w) (hw : w.isPromise = true) :
    callLoop impl arg (pre ++ en :: post) =
      ⟨.error .asyncMisuse,
       pre.filter (fun p => !p.once) ++ en :: post,
       pre.map (fun p => p.callback) ++ [en.callback]⟩ := by
  induction pre with
  | nil => simp [callLoop, hen, hw]
  | cons p pre' ih =>
    have hp := hpre p (by simp)
    have hpre' : ∀ q ∈ pre', impl q.callback arg = .ok (f q.callback) ∧
        (f q.callback).isPromise = false :=
      fun q hq => hpre q (List.mem_cons_of_mem _ hq)
    simp only [List.cons_append, callLoop, hp.1, hp.2]
    simp only [List.append_eq]
    rw [ih hpre']
    cases hone : p.once <;> simp [List.filter_cons, hone, Except.map]

theorem emitLoop_prefix_throw (impl : Impl) (arg : JSVal) (f : Nat → JSVal)
    (pre : Channel) (en : ListenerEntry) (post : Channel) (ex : JSVal)
    (hpre : ∀ p ∈ pre, impl p.callback arg = .ok (f p.callback))
    (hen : impl en.callback arg = .error ex) :
    emitLoop impl arg (pre ++ en :: post) =
      ⟨.error (.listenerThrew ex),
       pre.filter (fun p => !p.once) ++ en :: post,
       pre.map (fun p => p.callback) ++ [en.callback]⟩ := by
  induction pre with
  | nil => simp [emitLoop, hen]
  | cons p pre' ih =>
    have hp := hpre p (by simp)
    have hpre' : ∀ q ∈ pre', impl q.callback arg = .ok (f q.callback) :=
      fun q hq => hpre q (List.mem_cons_of_mem _ hq)
    simp only [List.cons_append, emitLoop, hp]
    simp only [List.append_eq]
    rw [ih hpre']
    cases hone : p.once <;> simp [List.filter_cons, hone, Except.map]

theorem callLoop_rem_ne_nil_of_error (impl : Impl) (arg : JSVal)
    (es : Channel) (d : DispatchError)
    (h : (callLoop impl arg es).res = .error d) :
    (callLoop impl arg es).rem ≠ [] := by
  induction es with
  | nil => simp [callLoop] at h
  | cons en rest ih =>
    cases him : impl en.callback arg with
    | error ex => simp [callLoop, him]
    | ok v =>
      cases hv : v.isPromise with
      | true => simp [callLoop, him, hv]
      | false =>
        simp only [callLoop, him, hv, Bool.false_eq_true, if_false] at h ⊢
        cases hone : en.once with
        | true =>
          simp only [hone, if_true]
          apply ih
          cases hres : (callLoop impl arg rest).res with
          | error e' =>
            simp only [hres, Except.map] at h
            exact h
          | ok vs => simp [hres, Except.map] at h
        | false => simp [hone]

theorem emitLoop_rem_ne_nil_of_error (impl : Impl) (arg : JSVal)
    (es : Channel) (d : DispatchError)
    (h : (emitLoop impl arg es).res = .error d) :
    (emitLoop impl arg es).rem ≠ [] := by
  induction es with
  | nil => simp [emitLoop] at h
  | cons en rest ih =>
    cases him : impl en.callback arg with
    | error ex => simp [emitLoop, him]
    | ok v =>
      simp only [emitLoop, him] at h ⊢
      cases hone : en.once with
      | true =>
        simp only [hone, if_true]
        apply ih
        cases hres : (emitLoop impl arg rest).res with
        | error e' =>
          simp only [hres, Except.map] at h
          exact h
        | ok vs => simp [hres, Except.map] at h
      | false => simp [hone]

theorem callLoop_rem_subset (impl : Impl) (arg : JSVal) (es : Channel) :
    ∀ en' ∈ (callLoop impl arg es).rem, en' ∈ es := by
  induction es with
  | nil => simp [callLoop]
  | cons en rest ih =>
    intro en' h
    cases him : impl en.callback arg with
    | error ex =>
      simp only [callLoop, him] at h
      exact h
    | ok v =>
      cases hv : v.isPromise with
      | true =>
        simp only [callLoop, him, hv, if_true] at h
        exact h
      | false =>
        simp only [callLoop, him, hv, Bool.false_eq_true, if_false] at h
        cases hone : en.once with
        | true =>
          simp only [hone, if_true] at h
          exact List.mem_cons_of_mem _ (ih en' h)
        | false =>
          simp only [hone, Bool.false_eq_true, if_false, List.mem_cons] at h
          rcases h with h | h
          · simp [h]
          · exact List.mem_cons_of_mem _ (ih en' h)

theorem emitLoop_rem_subset (impl : Impl) (arg : JSVal) (es : Channel) :
    ∀ en' ∈ (emitLoop impl arg es).rem, en' ∈ es := by
  induction es with
  | nil => simp [emitLoop]
  | cons en rest ih =>
    intro en' h
    cases him : impl en.callback arg with
    | error ex =>
      simp only [emitLoop, him] at h
      exact h
    | ok v =>
      simp only [emitLoop, him] at h
      cases hone : en.once with
      | true =>
        simp only [hone, if_true] at h
        exact List.mem_cons_of_mem _ (ih en' h)
      | false =>
        simp only [hone, Bool.false_eq_true, if_false, List.mem_cons] at h
        rcases h with h | h
        · simp [h]
        · exact List.mem_cons_of_mem _ (ih en' h)

/-! ## Counting invocations of one callback reference -/

theorem callLoop_count (impl : Impl) (arg : JSVal) (id : Nat) (es : Channel)
    (honce : ∀ en ∈ es, en.callback = id → en.once = true)
    (v0 : JSVal) (hv0 : impl id arg = .ok v0) (hv0p : v0.isPromise = false) :
    chanCount (callLoop impl arg es).rem id
      + ((callLoop impl arg es).inv).count id ≤ chanCount es id := by
  induction es with
  | nil => simp [callLoop, chanCount]
  | cons en rest ih =>
    have honce' : ∀ e ∈ rest, e.callback = id → e.once = true :=
      fun e he => honce e (List.mem_cons_of_mem _ he)
    have ih' := ih honce'
    by_cases hid : en.callback = id
    · have him : impl en.callback arg = .ok v0 := by rw [hid]; exact hv0
      have hone : en.once = true := honce en (by simp) hid
      simp only [callLoop, him, hv0p, Bool.false_eq_true, if_false, hone,
        if_true]
      have h1 : ((en.callback :: (callLoop impl arg rest).inv).count id)
          = ((callLoop impl arg rest).inv).count id + 1 := by
        simp [List.count_cons, hid]
      have h2 : chanCount (en :: rest) id = chanCount rest id + 1 := by
        simp [chanCount, List.countP_cons, hid]
      omega
    · cases him : impl en.callback arg with
      | error ex =>
        simp only [callLoop, him]
        have h1 : (([en.callback] : List Nat).count id) = 0 := by
          simp [List.count_cons, hid]
        omega
      | ok v =>
        cases hv : v.isPromise with
        | true =>
          simp only [callLoop, him, hv, if_true]
          have h1 : (([en.callback] : List Nat).count id) = 0 := by
            simp [List.count_cons, hid]
          omega
        | false =>
          simp only [callLoop, him, hv, Bool.false_eq_true, if_false]
          have h1 : ((en.callback :: (callLoop impl arg rest).inv).count id)
              = ((callLoop impl arg rest).inv).count id := by
            simp [List.count_cons, hid]
          have h2 : chanCount (en :: rest) id = chanCount rest id := by
            simp [chanCount, List.countP_cons, hid]
          have h3 : chanCount (en :: (callLoop impl arg rest).rem) id
              = chanCount (callLoop impl arg rest).rem id := by
            simp [chanCount, List.countP_cons, hid]
          cases hone : en.once with
          | true => simp only [if_true]; omega
          | false =>
            simp only [Bool.false_eq_true, if_false]
            omega

theorem emitLoop_count (impl : Impl) (arg : JSVal) (id : Nat) (es : Channel)
    (honce : ∀ en ∈ es, en.callback = id → en.once = true)
    (v0 : JSVal) (hv0 : impl id arg = .ok v0) :
    chanCount (emitLoop impl arg es).rem id
      + ((emitLoop impl arg es).inv).count id ≤ chanCount es id := by
  induction es with
  | nil => simp [emitLoop, chanCount]
  | cons en rest ih =>
    have honce' : ∀ e ∈ rest, e.callback = id → e.once = true :=
      fun e he => honce e (List.mem_cons_of_mem _ he)
    have ih' := ih honce'
    by_cases hid : en.callback = id
    · have him : impl en.callback arg = .ok v0 := by rw [hid]; exact hv0
      have hone : en.once = true := honce en (by simp) hid
      simp only [emitLoop, him, hone, if_true]
      have h1 : ((en.callback :: (emitLoop impl arg rest).inv).count id)
          = ((emitLoop impl arg rest).inv).count id + 1 := by
        simp [List.count_cons, hid]
      have h2 : chanCount (en :: rest) id = chanCount rest id + 1 := by
        simp [chanCount, List.countP_cons, hid]
      omega
    · cases him : impl en.callback arg with
      | error ex =>
        simp only [emitLoop, him]
        have h1 : (([en.callback] : List Nat).count id) = 0 := by
          simp [List.count_cons, hid]
        omega
      | ok v =>
        simp only [emitLoop, him]
        have h1 : ((en.callback :: (emitLoop impl arg rest).inv).count id)
            = ((emitLoop impl arg rest).inv).count id := by
          simp [List.count_cons, hid]
        have h2 : chanCount (en :: rest) id = chanCount rest id := by
          simp [chanCount, List.countP_cons, hid]
        have h3 : chanCount (en :: (emitLoop impl arg rest).rem) id
            = chanCount (emitLoop impl arg rest).rem id := by
          simp [chanCount, List.countP_cons, hid]
        cases hone : en.once with
        | true => simp only [if_true]; omega
        | false =>
          simp only [Bool.false_eq_true, if_false]
          omega

theorem call_state_count (impl : Impl) (st : SuperEvents) (e : String)
    (arg : JSVal) (id : Nat) (honce : onceOnly st id)
    (v0 : JSVal) (hv0 : impl id arg = .ok v0) (hv0p : v0.isPromise = false) :
    stateCount (SuperEvents.call impl st e arg).state id
      + ((SuperEvents.call impl st e arg).invoked).count id ≤ stateCount st id
      ∧ onceOnly (SuperEvents.call impl st e arg).state id := by
  by_cases hhas : mapHas st.events e = false
  · simp only [SuperEvents.call, hhas, if_true]
    exact ⟨by simp, honce⟩
  · have hhas' : mapHas st.events e = true := by
      simpa using hhas
    have hch : ∀ en ∈ mapGet st.events e, en.callback = id → en.once = true := by
      intro en hen hid
      obtain ⟨p, hp, hmem⟩ := mem_mapGet st.events e en hen
      exact honce p hp en hmem hid
    have hloop := callLoop_count impl arg id (mapGet st.events e) hch v0 hv0 hv0p
    have hsub := callLoop_rem_subset impl arg (mapGet st.events e)
    simp only [SuperEvents.call, hhas', Bool.true_eq_false, if_false]
    constructor
    · cases hres : (callLoop impl arg (mapGet st.events e)).res with
      | ok vs =>
        cases hrem : ((callLoop impl arg (mapGet st.events e)).rem).isEmpty with
        | true =>
          have hdel := mapCount_mapDelete st.events e id hhas'
          have hremnil : (callLoop impl arg (mapGet st.events e)).rem = [] :=
            List.isEmpty_iff.mp hrem
          have hz : chanCount ([] : Channel) id = 0 := rfl
          rw [hremnil, hz] at hloop
          simp only [stateCount, applyDispatch, hres, hrem, if_true]
          omega
        | false =>
          have hset := mapCount_mapSet st.events e
            ((callLoop impl arg (mapGet st.events e)).rem) id hhas'
          simp only [stateCount, applyDispatch, hres, hrem, Bool.false_eq_true,
            if_false]
          omega
      | error d =>
        have hset := mapCount_mapSet st.events e
          ((callLoop impl arg (mapGet st.events e)).rem) id hhas'
        simp only [stateCount, applyDispatch, hres]
        omega
    · intro p hp en hmem hid
      simp only [applyDispatch] at hp
      cases hres : (callLoop impl arg (mapGet st.events e)).res with
      | ok vs =>
        rw [hres] at hp
        by_cases hrem : ((callLoop impl arg (mapGet st.events e)).rem).isEmpty
        · simp only [hrem, if_true] at hp
          exact honce p (mem_mapDelete st.events e p hp) en hmem hid
        · simp only [hrem, if_false] at hp
          rcases mem_mapSet st.events e _ p hp with hpv | hpm
          · subst hpv
            exact hch en (hsub en hmem) hid
          · exact honce p hpm en hmem hid
      | error d =>
        rw [hres] at hp
        rcases mem_mapSet st.events e _ p hp with hpv | hpm
        · subst hpv
          exact hch en (hsub en hmem) hid
        · exact honce p hpm en hmem hid

theorem emit_state_count (impl : Impl) (st : SuperEvents) (e : String)
    (arg : JSVal) (id : Nat) (honce : onceOnly st id)
    (v0 : JSVal) (hv0 : impl id arg = .ok v0) :
    stateCount (SuperEvents.emit impl st e arg).state id
      + ((SuperEvents.emit impl st e arg).invoked).count id ≤ stateCount st id
      ∧ onceOnly (SuperEvents.emit impl st e arg).state id := by
  by_cases hhas : mapHas st.events e = false
  · simp only [SuperEvents.emit, hhas, if_true]
    exact ⟨by simp, honce⟩
  · have hhas' : mapHas st.events e = true := by
      simpa using hhas
    have hch : ∀ en ∈ mapGet st.events e, en.callback = id → en.once = true := by
      intro en hen hid
      obtain ⟨p, hp, hmem⟩ := mem_mapGet st.events e en hen
      exact honce p hp en hmem hid
    have hloop := emitLoop_count impl arg id (mapGet st.events e) hch v0 hv0
    have hsub := emitLoop_rem_subset impl arg (mapGet st.events e)
    simp only [SuperEvents.emit, hhas', Bool.true_eq_false, if_false]
    constructor
    · cases hres : (emitLoop impl arg (mapGet st.events e)).res with
      | ok vs =>
        cases hrem : ((emitLoop impl arg (mapGet st.events e)).rem).isEmpty with
        | true =>
          have hdel := mapCount_mapDelete st.events e id hhas'
          have hremnil : (emitLoop impl arg (mapGet st.events e)).rem = [] :=
            List.isEmpty_iff.mp hrem
          have hz : chanCount ([] : Channel) id = 0 := rfl
          rw [hremnil, hz] at hloop
          simp only [stateCount, applyDispatch, hres, hrem, if_true]
          omega
        | false =>
          have hset := mapCount_mapSet st.events e
            ((emitLoop impl arg (mapGet st.events e)).rem) id hhas'
          simp only [stateCount, applyDispatch, hres, hrem, Bool.false_eq_true,
            if_false]
          omega
      | error d =>
        have hset := mapCount_mapSet st.events e
          ((emitLoop impl arg (mapGet st.events e)).rem) id hhas'
        simp only [stateCount, applyDispatch, hres]
        omega
    · intro p hp en hmem hid
      simp only [applyDispatch] at hp
      cases hres : (emitLoop impl arg (mapGet st.events e)).res with
      | ok vs =>
        rw [hres] at hp
        by_cases hrem : ((emitLoop impl arg (mapGet st.events e)).rem).isEmpty
        · simp only [hrem, if_true] at hp
          exact honce p (mem_mapDelete st.events e p hp) en hmem hid
        · simp only [hrem, if_false] at hp
          rcases mem_mapSet st.events e _ p hp with hpv | hpm
          · subst hpv
            exact hch en (hsub en hmem) hid
          · exact honce p hpm en hmem hid
      | error d =>
        rw [hres] at hp
        rcases mem_mapSet st.events e _ p hp with hpv | hpm
        · subst hpv
          exact hch en (hsub en hmem) hid
        · exact honce p hpm en hmem hid

theorem runOp_count (impl : Impl) (st : SuperEvents) (id : Nat)
    (op : DispatchOp) (honce : onceOnly st id)
    (himpl : ∀ a, ∃ v, impl id a = .ok v ∧ v.isPromise = false) :
    stateCount (runOp impl st op).1 id + ((runOp impl st op).2).count id
      ≤ stateCount st id ∧ onceOnly (runOp impl st op).1 id := by
  cases op with
  | opCall e a =>
    obtain ⟨v0, hv0, hv0p⟩ := himpl a
    exact call_state_count impl st e a id honce v0 hv0 hv0p
  | opEmit e a =>
    obtain ⟨v0, hv0, _⟩ := himpl a
    exact emit_state_count impl st e a id honce v0 hv0
  | opCallAsync e a =>
    obtain ⟨v0, hv0, _⟩ := himpl a
    exact emit_state_count impl st e a id honce v0 hv0
  | opFirst e a =>
    obtain ⟨v0, hv0, hv0p⟩ := himpl a
    exact call_state_count impl st e a id honce v0 hv0 hv0p
  | opFirstAsync e a =>
    obtain ⟨v0, hv0, _⟩ := himpl a
    exact emit_state_count impl st e a id honce v0 hv0

theorem runOps_count (impl : Impl) (id : Nat) (ops : List DispatchOp) :
    ∀ st : SuperEvents, onceOnly st id →
    (∀ a, ∃ v, impl id a = .ok v ∧ v.isPromise = false) →
    stateCount (runOps impl ops st).1 id + ((runOps impl ops st).2).count id
      ≤ stateCount st id := by
  induction ops with
  | nil =>
    intro st _ _
    simp [runOps]
  | cons op rest ih =>
    intro st h1 h2
    have hstep := runOp_count impl st id op h1 h2
    have hrest := ih (runOp impl st op).1 hstep.2 h2
    have hs := hstep.1
    simp only [runOps, List.count_append]
    omega

/-! ## Registration lemmas -/

theorem addListener_events (st : SuperEvents) (e : String) (cb : Nat)
    (o : Bool) :
    (st.addListener e cb o).1.events
      = mapSet st.events e (mapGet st.events e ++ [⟨cb, o⟩]) := by
  by_cases hhas : mapHas st.events e = false
  · simp only [SuperEvents.addListener, hhas, if_true]
    rw [mapGet_mapSet_self, mapSet_mapSet_self,
      mapGet_eq_nil_of_not_has st.events e hhas]
  · have hhas' : mapHas st.events e = true := by simpa using hhas
    simp [SuperEvents.addListener, hhas']

theorem on_channel (st : SuperEvents) (e : String) (cb : Nat) :
    mapGet ((st.on e cb).1).events e = mapGet st.events e ++ [⟨cb, false⟩] := by
  show mapGet ((st.addListener e cb false).1).events e = _
  rw [addListener_events, mapGet_mapSet_self]

theorem once_channel (st : SuperEvents) (e : String) (cb : Nat) :
    mapGet ((st.once e cb).1).events e = mapGet st.events e ++ [⟨cb, true⟩] := by
  show mapGet ((st.addListener e cb true).1).events e = _
  rw [addListener_events, mapGet_mapSet_self]

theorem foldl_on_channel (e : String) (cbs : List Nat) :
    ∀ st : SuperEvents,
      mapGet ((cbs.foldl (fun s cb => (s.on e cb).1) st).events) e
        = mapGet st.events e
            ++ cbs.map (fun cb => (⟨cb, false⟩ : ListenerEntry)) := by
  induction cbs with
  | nil =>
    intro st
    simp
  | cons cb rest ih =>
    intro st
    simp only [List.foldl_cons]
    rw [ih, on_channel]
    simp

theorem registerAll_channel (e : String) (cbs : List Nat) :
    mapGet (registerAll e cbs).events e
      = cbs.map (fun cb => (⟨cb, false⟩ : ListenerEntry)) := by
  unfold registerAll
  rw [foldl_on_channel]
  simp [SuperEvents.empty, mapGet]

/-! ## Dispatch on an all-ok channel -/

theorem call_all_ok (impl : Impl) (st : SuperEvents) (e : String)
    (arg : JSVal) (f : Nat → JSVal)
    (h : ∀ en ∈ mapGet st.events e, impl en.callback arg = .ok (f en.callback)
        ∧ (f en.callback).isPromise = false) :
    (SuperEvents.call impl st e arg).result
        = .ok ((mapGet st.events e).map (fun en => f en.callback)) ∧
    (SuperEvents.call impl st e arg).invoked
        = (mapGet st.events e).map (fun en => en.callback) := by
  by_cases hhas : mapHas st.events e = false
  · rw [mapGet_eq_nil_of_not_has st.events e hhas]
    constructor <;> simp [SuperEvents.call, hhas]
  · have hhas' : mapHas st.events e = true := by simpa using hhas
    have hl := callLoop_all_ok impl arg f (mapGet st.events e) h
    constructor <;> simp [SuperEvents.call, hhas', hl]

/-! ## Preservation of the no-empty-channel invariant -/

theorem noEmptyM_mapSet (m : EventMap) (k : String) (v : Channel)
    (h : ∀ p ∈ m, p.2 ≠ []) (hv : v ≠ []) : ∀ p ∈ mapSet m k v, p.2 ≠ [] := by
  intro p hp
  rcases mem_mapSet m k v p hp with h' | h'
  · rw [h']
    exact hv
  · exact h p h'

theorem applyDispatch_noEmpty {α : Type} (st : SuperEvents) (e : String)
    (res : Except DispatchError α) (rem : Channel) (h : noEmptyChannel st)
    (herr : ∀ d, res = .error d → rem ≠ []) :
    noEmptyChannel (applyDispatch st e res rem) := by
  cases res with
  | ok a =>
    simp only [applyDispatch]
    cases hrem : rem.isEmpty with
    | true =>
      simp only [if_true]
      intro p hp
      exact h p (mem_mapDelete st.events e p hp)
    | false =>
      simp only [Bool.false_eq_true, if_false]
      intro p hp
      have hv : rem ≠ [] := by
        intro hnil
        rw [hnil] at hrem
        simp at hrem
      exact noEmptyM_mapSet st.events e rem h hv p hp
  | error d =>
    simp only [applyDispatch]
    intro p hp
    exact noEmptyM_mapSet st.events e rem h (herr d rfl) p hp

theorem call_noEmpty (impl : Impl) (st : SuperEvents) (e : String)
    (arg : JSVal) (h : noEmptyChannel st) :
    noEmptyChannel (SuperEvents.call impl st e arg).state := by
  by_cases hhas : mapHas st.events e = false
  · simp only [SuperEvents.call, hhas, if_true]
    exact h
  · have hhas' : mapHas st.events e = true := by simpa using hhas
    simp only [SuperEvents.call, hhas', Bool.true_eq_false, if_false]
    exact applyDispatch_noEmpty st e _ _ h
      (fun d hd => callLoop_rem_ne_nil_of_error impl arg _ d hd)

theorem emit_noEmpty (impl : Impl) (st : SuperEvents) (e : String)
    (arg : JSVal) (h : noEmptyChannel st) :
    noEmptyChannel (SuperEvents.emit impl st e arg).state := by
  by_cases hhas : mapHas st.events e = false
  · simp only [SuperEvents.emit, hhas, if_true]
    exact h
  · have hhas' : mapHas st.events e = true := by simpa using hhas
    simp only [SuperEvents.emit, hhas', Bool.true_eq_false, if_false]
    exact applyDispatch_noEmpty st e _ _ h
      (fun d hd => emitLoop_rem_ne_nil_of_error impl arg _ d hd)

theorem addListener_noEmpty (st : SuperEvents) (e : String) (cb : Nat)
    (o : Bool) (h : noEmptyChannel st) :
    noEmptyChannel (st.addListener e cb o).1 := by
  intro p hp
  rw [addListener_events] at hp
  rcases mem_mapSet st.events e _ p hp with h' | h'
  · rw [h']
    simp
  · exact h p h'

theorem off_noEmpty (st : SuperEvents) (e : String) (cb : Nat)
    (h : noEmptyChannel st) : noEmptyChannel (st.off e cb) := by
  unfold SuperEvents.off
  by_cases hhas : mapHas st.events e = false
  · simp only [hhas, if_true]
    exact h
  · have hhas' : mapHas st.events e = true := by simpa using hhas
    simp only [hhas', Bool.true_eq_false, if_false]
    split
    · intro p hp
      exact h p (mem_mapDelete st.events e p hp)
    · intro p hp
      rcases mem_mapSet st.events e _ p hp with h' | h'
      · rw [h']
        intro hnil
        simp only [hnil] at *
        simp_all
      · exact h p h'

theorem v3emit_noEmpty (impl : Impl) (st : SuperEvents) (e : String)
    (arg : JSVal) (h : noEmptyChannel st) :
    noEmptyChannel (SuperEventsV3.emit impl st e arg).state := by
  by_cases hhas : mapHas st.events e = false
  · simp only [SuperEventsV3.emit, hhas, if_true]
    exact h
  · have hhas' : mapHas st.events e = true := by simpa using hhas
    simp only [SuperEventsV3.emit, hhas', Bool.true_eq_false, if_false]
    exact applyDispatch_noEmpty st e _ _ h
      (fun d hd => callLoop_rem_ne_nil_of_error impl arg _ d hd)

theorem v3emitAsync_noEmpty (impl : Impl) (st : SuperEvents) (e : String)
    (arg : JSVal) (h : noEmptyChannel st) :
    noEmptyChannel (SuperEventsV3.emitAsync impl st e arg).state := by
  by_cases hhas : mapHas st.events e = false
  · simp only [SuperEventsV3.emitAsync, hhas, if_true]
    exact h
  · have hhas' : mapHas st.events e = true := by simpa using hhas
    simp only [SuperEventsV3.emitAsync, hhas', Bool.true_eq_false, if_false]
    exact applyDispatch_noEmpty st e _ _ h
      (fun d hd => emitLoop_rem_ne_nil_of_error impl arg _ d hd)

/-! ## Lemmas about off (findIndex + splice) -/

theorem chanFindIdx_split (p : ListenerEntry → Bool) (pre : Channel)
    (en : ListenerEntry) (post : Channel)
    (hpre : ∀ q ∈ pre, p q = false) (hen : p en = true) :
    chanFindIdx p (pre ++ en :: post) = some pre.length := by
  induction pre with
  | nil => simp [chanFindIdx, hen]
  | cons q pre' ih =>
    have hq := hpre q (by simp)
    have hpre' : ∀ r ∈ pre', p r = false :=
      fun r hr => hpre r (List.mem_cons_of_mem _ hr)
    simp [chanFindIdx, hq, ih hpre']

theorem chanFindIdx_none (p : ListenerEntry → Bool) (l : Channel)
    (h : ∀ q ∈ l, p q = false) : chanFindIdx p l = none := by
  induction l with
  | nil => rfl
  | cons q rest ih =>
    have hq := h q (by simp)
    have h' : ∀ r ∈ rest, p r = false :=
      fun r hr => h r (List.mem_cons_of_mem _ hr)
    simp [chanFindIdx, hq, ih h']

theorem chanEraseIdx_split (pre : Channel) (en : ListenerEntry)
    (post : Channel) :
    chanEraseIdx (pre ++ en :: post) pre.length = pre ++ post := by
  induction pre with
  | nil => rfl
  | cons q pre' ih => simp [chanEraseIdx, ih]

theorem mapGet_mem (m : EventMap) (k : String) (h : mapHas m k = true) :
    (k, mapGet m k) ∈ m := by
  induction m with
  | nil => simp [mapHas] at h
  | cons p rest ih =>
    obtain ⟨pk, pv⟩ := p
    by_cases hk : pk = k
    · subst hk
      simp [mapGet]
    · simp only [mapHas, beq_iff_eq, hk, false_or, Bool.or_eq_true] at h
      simp only [mapGet, beq_iff_eq, hk, if_false]
      exact List.mem_cons_of_mem _ (ih h)

theorem off_unknown (st : SuperEvents) (e : String) (cb : Nat)
    (h : mapHas st.events e = false) : st.off e cb = st := by
  simp [SuperEvents.off, h]

theorem off_not_found (st : SuperEvents) (e : String) (cb : Nat)
    (hhas : mapHas st.events e = true)
    (hno : ∀ q ∈ mapGet st.events e, q.callback ≠ cb)
    (hne : mapGet st.events e ≠ []) : st.off e cb = st := by
  have hfind : chanFindIdx (fun en => en.callback == cb)
      (mapGet st.events e) = none := by
    apply chanFindIdx_none
    intro q hq
    simp [hno q hq]
  have hemp : (mapGet st.events e).isEmpty = false := by
    cases hc : mapGet st.events e with
    | nil => exact absurd hc hne
    | cons a l => rfl
  simp only [SuperEvents.off, hhas, Bool.true_eq_false, if_false, hfind,
    hemp, Bool.false_eq_true, if_false]
  rw [mapSet_self st.events e hhas]

theorem off_removes_first (st : SuperEvents) (e : String) (cb : Nat)
    (pre : Channel) (en : ListenerEntry) (post : Channel)
    (hch : mapGet st.events e = pre ++ en :: post)
    (hen : en.callback = cb) (hpre : ∀ q ∈ pre, q.callback ≠ cb) :
    st.off e cb = if pre ++ post = [] then ⟨mapDelete st.events e⟩
      else ⟨mapSet st.events e (pre ++ post)⟩ := by
  have hhas : mapHas st.events e = true := by
    apply mapHas_of_mapGet_ne_nil
    rw [hch]
    simp
  have hfind : chanFindIdx (fun q => q.callback == cb)
      (mapGet st.events e) = some pre.length := by
    rw [hch]
    apply chanFindIdx_split
    · intro q hq
      simp [hpre q hq]
    · simp [hen]
  simp only [SuperEvents.off, hhas, Bool.true_eq_false, if_false, hfind]
  rw [hch, chanEraseIdx_split]
  by_cases hnil : pre ++ post = []
  · simp [hnil]
  · have hemp : (pre ++ post).isEmpty = false := by
      cases hc : pre ++ post with
      | nil => exact absurd hc hnil
      | cons a l => rfl
    simp [hemp, hnil]

theorem chanCount_eq_zero (es : Channel) (cb : Nat) :
    chanCount es cb = 0 ↔ ∀ q ∈ es, q.callback ≠ cb := by
  constructor
  · intro h q hq hcb
    have := List.countP_eq_zero.mp h q hq
    simp [hcb] at this
  · intro h
    apply List.countP_eq_zero.mpr
    intro q hq
    simp [h q hq]

theorem chanCount_one_split (es : Channel) (cb : Nat)
    (h : chanCount es cb = 1) :
    ∃ pre en post, es = pre ++ en :: post ∧ en.callback = cb ∧
      (∀ q ∈ pre, q.callback ≠ cb) ∧ (∀ q ∈ post, q.callback ≠ cb) := by
  induction es with
  | nil => simp [chanCount] at h
  | cons en rest ih =>
    by_cases hcb : en.callback = cb
    · have hrest : chanCount rest cb = 0 := by
        simp only [chanCount, List.countP_cons, hcb] at h
        simp only [beq_self_eq_true, if_true] at h
        simpa [chanCount] using h
      exact ⟨[], en, rest, by simp, hcb, by simp,
        (chanCount_eq_zero rest cb).mp hrest⟩
    · have hrest : chanCount rest cb = 1 := by
        simp only [chanCount, List.countP_cons] at h ⊢
        simp only [beq_iff_eq, hcb, if_false] at h
        omega
      obtain ⟨pre, en', post, heq, hen', hpre, hpost⟩ := ih hrest
      exact ⟨en :: pre, en', post, by simp [heq], hen',
        by
          intro q hq
          rcases List.mem_cons.mp hq with hq | hq
          · rw [hq]; exact hcb
          · exact hpre q hq,
        hpost⟩

/-! ## find? characterisation (first-non-nullish lookup) -/

theorem find?_split (p : JSVal → Bool) (l : List JSVal) (v : JSVal)
    (h : l.find? p = some v) :
    ∃ pre post, l = pre ++ v :: post ∧ (∀ r ∈ pre, p r = false) ∧
      p v = true := by
  induction l with
  | nil => simp at h
  | cons a l ih =>
    cases hpa : p a with
    | true =>
      rw [List.find?_cons_of_pos _ hpa] at h
      obtain rfl : a = v := Option.some.inj h
      exact ⟨[], l, by simp, by simp, hpa⟩
    | false =>
      rw [List.find?_cons_of_neg _ (by simp [hpa])] at h
      obtain ⟨pre, post, heq, hpre, hv⟩ := ih h
      refine ⟨a :: pre, post, by simp [heq], ?_, hv⟩
      intro r hr
      rcases List.mem_cons.mp hr with hr | hr
      · rw [hr]; exact hpa
      · exact hpre r hr

/-! ## Concrete listener behaviours used by witnesses -/

/-- Callbacks of the spec scenario: reference 0 is x => x + 1, reference 1
is x => x * 2. -/
def implAdd : Impl := fun cb a =>
  match cb, a with
  | 0, .vnum n => .ok (.vnum (n + 1))
  | 1, .vnum n => .ok (.vnum (n * 2))
  | _, _ => .ok (.vnum 0)

/-- The expected return values of implAdd at argument 5. -/
def fAdd : Nat → JSVal := fun cb => if cb == 0 then .vnum 6 else .vnum 10

/-- A listener that always throws. -/
def implThrow : Impl := fun _ _ => .error .vnull

/-- A listener that returns 1. -/
def implOne : Impl := fun _ _ => .ok (.vnum 1)

/-- A listener that returns null. -/
def implNull : Impl := fun _ _ => .ok .vnull

/-- A listener that returns 3. -/
def implNum : Impl := fun _ _ => .ok (.vnum 3)

/-- A listener that returns a promise of 9. -/
def implProm : Impl := fun _ _ => .ok (.vpromise (.vnum 9))

/-- Reference 0 returns 1, reference 1 returns a promise, reference 2
returns 2. -/
def implC3 : Impl := fun cb _ =>
  match cb with
  | 0 => .ok (.vnum 1)
  | 1 => .ok (.vpromise .vnull)
  | _ => .ok (.vnum 2)

/-- Reference 0 returns 7, any other reference throws "boom". -/
def implC4 : Impl := fun cb _ =>
  match cb with
  | 0 => .ok (.vnum 7)
  | _ => .error (.vstr "boom")

/-- A once listener followed by a plain listener on event "b". -/
def stC4 : SuperEvents := ((SuperEvents.empty.once "b" 0).1.on "b" 1).1

/-- Two adjacent once listeners on event "e". -/
def stTwoOnce : SuperEvents := ((SuperEvents.empty.once "e" 0).1.once "e" 1).1

/-! ## Claims -/

/-- C1: for every sequence of on registrations on one event and every
argument, call invokes each registered listener once with that argument and
returns the ordered list of their return values in registration order
(given every listener returns normally with a non-promise value, as in the
claimed scenario). -/
theorem c1_call_registration_order (impl : Impl) (e : String) (arg : JSVal)
    (cbs : List Nat) (f : Nat → JSVal)
    (h : ∀ cb ∈ cbs, impl cb arg = .ok (f cb) ∧ (f cb).isPromise = false) :
    (SuperEvents.call impl (registerAll e cbs) e arg).result
        = .ok (cbs.map f) ∧
    (SuperEvents.call impl (registerAll e cbs) e arg).invoked = cbs := by
  have hch := registerAll_channel e cbs
  have hh : ∀ en ∈ mapGet (registerAll e cbs).events e,
      impl en.callback arg = .ok (f en.callback) ∧
      (f en.callback).isPromise = false := by
    intro en hen
    rw [hch] at hen
    obtain ⟨cb, hcb, rfl⟩ := List.mem_map.mp hen
    exact h cb hcb
  have hc := call_all_ok impl (registerAll e cbs) e arg f hh
  rw [hch] at hc
  constructor
  · rw [hc.1, List.map_map]
    rfl
  · rw [hc.2, List.map_map]
    exact List.map_id cbs

/-- C1 witness: registering f1 = x => x + 1 then f2 = x => x * 2 on "test"
makes call("test", 5) return [6, 10], invoking both listeners. -/
theorem c1_witness :
    (∀ cb ∈ [0, 1], implAdd cb (.vnum 5) = .ok (fAdd cb) ∧
        (fAdd cb).isPromise = false) ∧
    (SuperEvents.call implAdd (registerAll "test" [0, 1]) "test"
        (.vnum 5)).result = .ok [.vnum 6, .vnum 10] ∧
    (SuperEvents.call implAdd (registerAll "test" [0, 1]) "test"
        (.vnum 5)).invoked = [0, 1] := by
  refine ⟨by decide, ?_, ?_⟩
  · exact (c1_call_registration_order implAdd "test" (.vnum 5) [0, 1] fAdd
      (by decide)).1.trans (by decide)
  · exact (c1_call_registration_order implAdd "test" (.vnum 5) [0, 1] fAdd
      (by decide)).2

/-- C2 counterexample: a listener registered with once whose invocation
throws is NOT spliced out (the splice comes after the invocation and the
throw aborts the dispatch first), so a second dispatch invokes it again:
over two call dispatches the once-registered callback 0 is invoked twice,
refuting "invoked exactly once over its lifetime no matter how many
dispatches follow its registration". -/
theorem c2_counterexample :
    ((SuperEvents.call implThrow (SuperEvents.empty.once "o" 0).1 "o"
        .vnull).invoked
      ++ (SuperEvents.call implThrow
          (SuperEvents.call implThrow (SuperEvents.empty.once "o" 0).1 "o"
            .vnull).state "o" .vnull).invoked).count 0 = 2 := by decide

/-- C2 amended: provided every invocation of the once-registered callback
completes normally with a non-promise value, the callback is invoked at
most once across any sequence of dispatches of any method (when a dispatch
reaches it, the entry is spliced out inline and never re-invoked); and
within one dispatch no listener is skipped by the inline removal: a call
whose listeners all return normally invokes every current listener of the
channel, including adjacent once listeners, exactly once in registration
order. -/
theorem c2_once_amended (impl : Impl) (st : SuperEvents) (id : Nat)
    (ops : List DispatchOp) (h1 : onceOnly st id)
    (h2 : stateCount st id ≤ 1)
    (h3 : ∀ a, ∃ v, impl id a = .ok v ∧ v.isPromise = false) :
    ((runOps impl ops st).2).count id ≤ 1 ∧
    (∀ (e : String) (arg : JSVal) (f : Nat → JSVal),
      (∀ en ∈ mapGet st.events e,
          impl en.callback arg = .ok (f en.callback) ∧
          (f en.callback).isPromise = false) →
      (SuperEvents.call impl st e arg).invoked
        = (mapGet st.events e).map (fun en => en.callback)) := by
  constructor
  · have h := runOps_count impl id ops st h1 h3
    omega
  · intro e arg f hf
    exact (call_all_ok impl st e arg f hf).2

/-- C2 witness: two adjacent once listeners (0 and 1) on "e"; a single
dispatch invokes both, in order, none skipped; and across three further
dispatches callback 0 is invoked at most once in total. -/
theorem c2_witness :
    onceOnly stTwoOnce 0 ∧ stateCount stTwoOnce 0 ≤ 1 ∧
    ((runOps implOne
        [.opCall "e" .vnull, .opCall "e" .vnull, .opEmit "e" .vnull]
        stTwoOnce).2).count 0 ≤ 1 ∧
    (SuperEvents.call implOne stTwoOnce "e" .vnull).invoked = [0, 1] := by
  have h3 : ∀ a, ∃ v, implOne 0 a = .ok v ∧ v.isPromise = false :=
    fun a => ⟨.vnum 1, rfl, rfl⟩
  have h1 : onceOnly stTwoOnce 0 := by
    unfold onceOnly
    decide
  have h2 : stateCount stTwoOnce 0 ≤ 1 := by decide
  refine ⟨h1, h2, ?_, ?_⟩
  · exact (c2_once_amended implOne stTwoOnce 0
      [.opCall "e" .vnull, .opCall "e" .vnull, .opEmit "e" .vnull]
      h1 h2 h3).1
  · exact ((c2_once_amended implOne stTwoOnce 0 [] h1 h2 h3).2 "e" .vnull
      (fun _ => .vnum 1) (by decide)).trans (by decide)

/-- C3: sync-strict dispatch — call of SuperEvents.ts, and the sync-strict
emit of the singleton variant in SuperEvents.js — fails with the async
misuse Error at the first listener that returns a promise, invokes no
listener positioned after the offending one (the trace stops at it), and
returns no partial result sequence: the whole dispatch is the error. -/
theorem c3_sync_strict_async_misuse (impl : Impl) (st : SuperEvents)
    (e : String) (arg : JSVal) (f : Nat → JSVal) (pre : Channel)
    (en : ListenerEntry) (post : Channel) (w : JSVal)
    (hch : mapGet st.events e = pre ++ en :: post)
    (hpre : ∀ p ∈ pre, impl p.callback arg = .ok (f p.callback) ∧
        (f p.callback).isPromise = false)
    (hen : impl en.callback arg = .ok w) (hw : w.isPromise = true) :
    (SuperEvents.call impl st e arg).result = .error .asyncMisuse ∧
    (SuperEvents.call impl st e arg).invoked
      = pre.map (fun p => p.callback) ++ [en.callback] ∧
    (SuperEvents.call impl st e arg).state
      = ⟨mapSet st.events e (pre.filter (fun p => !p.once) ++ en :: post)⟩ ∧
    (SuperEventsV3.emit impl st e arg).result = .error .asyncMisuse ∧
    (SuperEventsV3.emit impl st e arg).invoked
      = pre.map (fun p => p.callback) ++ [en.callback] ∧
    (SuperEventsV3.emit impl st e arg).state
      = ⟨mapSet st.events e (pre.filter (fun p => !p.once) ++ en :: post)⟩ := by
  have hhas : mapHas st.events e = true := by
    apply mapHas_of_mapGet_ne_nil
    rw [hch]
    simp
  have hl := callLoop_prefix_promise impl arg f pre en post w hpre hen hw
  refine ⟨?_, ?_, ?_, ?_, ?_, ?_⟩ <;>
    simp [SuperEvents.call, SuperEventsV3.emit, hhas, hch, hl, applyDispatch,
      Except.map]

/-- C3 witness: three listeners on "a"; the second returns a promise.
call and the sync-strict emit both fail with the async misuse error,
invoking only listeners 0 and 1 — listener 2 is never invoked and no
partial results are returned. -/
theorem c3_witness :
    (SuperEvents.call implC3 (registerAll "a" [0, 1, 2]) "a" .vnull).result
        = .error .asyncMisuse ∧
    (SuperEvents.call implC3 (registerAll "a" [0, 1, 2]) "a" .vnull).invoked
        = [0, 1] ∧
    (SuperEventsV3.emit implC3 (registerAll "a" [0, 1, 2]) "a" .vnull).result
        = .error .asyncMisuse ∧
    (SuperEventsV3.emit implC3 (registerAll "a" [0, 1, 2]) "a"
        .vnull).invoked = [0, 1] := by
  have h := c3_sync_strict_async_misuse implC3 (registerAll "a" [0, 1, 2])
    "a" .vnull (fun cb => if cb == 0 then .vnum 1 else .vnum 2)
    [⟨0, false⟩] ⟨1, false⟩ [⟨2, false⟩] (.vpromise .vnull)
    (by decide) (by decide) rfl rfl
  exact ⟨h.1, h.2.1.trans (by decide), h.2.2.2.1,
    h.2.2.2.2.1.trans (by decide)⟩

/-- C4: when a listener throws synchronously during sync-strict dispatch
(call of SuperEvents.ts, or the sync-strict emit of the singleton variant),
the thrown value propagates as the dispatch result, no listener positioned
after the thrower is invoked, and the channel mutations already performed
for earlier once listeners remain applied: the post-dispatch channel is the
already-filtered prefix (consumed once entries gone, not rolled back)
followed by the thrower and the untouched tail. -/
theorem c4_throw_no_rollback (impl : Impl) (st : SuperEvents) (e : String)
    (arg : JSVal) (f : Nat → JSVal) (pre : Channel) (en : ListenerEntry)
    (post : Channel) (ex : JSVal)
    (hch : mapGet st.events e = pre ++ en :: post)
    (hpre : ∀ p ∈ pre, impl p.callback arg = .ok (f p.callback) ∧
        (f p.callback).isPromise = false)
    (hen : impl en.callback arg = .error ex) :
    (SuperEvents.call impl st e arg).result = .error (.listenerThrew ex) ∧
    (SuperEvents.call impl st e arg).invoked
      = pre.map (fun p => p.callback) ++ [en.callback] ∧
    (SuperEvents.call impl st e arg).state
      = ⟨mapSet st.events e (pre.filter (fun p => !p.once) ++ en :: post)⟩ ∧
    (SuperEventsV3.emit impl st e arg).result = .error (.listenerThrew ex) ∧
    (SuperEventsV3.emit impl st e arg).invoked
      = pre.map (fun p => p.callback) ++ [en.callback] ∧
    (SuperEventsV3.emit impl st e arg).state
      = ⟨mapSet st.events e (pre.filter (fun p => !p.once) ++ en :: post)⟩ := by
  have hhas : mapHas st.events e = true := by
    apply mapHas_of_mapGet_ne_nil
    rw [hch]
    simp
  have hl := callLoop_prefix_throw impl arg f pre en post ex hpre hen
  refine ⟨?_, ?_, ?_, ?_, ?_, ?_⟩ <;>
    simp [SuperEvents.call, SuperEventsV3.emit, hhas, hch, hl, applyDispatch,
      Except.map]

/-- C4 witness: a once listener (0) then a throwing listener (1) on "b".
The dispatch propagates the thrown value, invokes only 0 and 1, and the
already-applied removal of the consumed once entry is kept: the channel
afterwards holds only the thrower. -/
theorem c4_witness :
    (SuperEvents.call implC4 stC4 "b" .vnull).result
        = .error (.listenerThrew (.vstr "boom")) ∧
    (SuperEvents.call implC4 stC4 "b" .vnull).invoked = [0, 1] ∧
    mapGet (SuperEvents.call implC4 stC4 "b" .vnull).state.events "b"
        = [⟨1, false⟩] ∧
    (SuperEventsV3.emit implC4 stC4 "b" .vnull).result
        = .error (.listenerThrew (.vstr "boom")) := by
  have h := c4_throw_no_rollback implC4 stC4 "b" .vnull (fun _ => .vnum 7)
    [⟨0, true⟩] ⟨1, false⟩ [] (.vstr "boom") (by decide) (by decide) rfl
  refine ⟨h.1, h.2.1.trans (by decide), ?_, h.2.2.2.1⟩
  rw [h.2.2.1]
  decide

/-- C5: the registry never binds an event name to an empty listener list:
the invariant holds of a fresh registry and is preserved by every public
operation — on, once, off, the dispatches of SuperEvents.ts (emit, call,
callAsync, first, firstAsync) including their throwing outcomes, and the
sync-strict emit, emitAsync and clear of the singleton variant — so an
emptied channel is always deleted within the same operation. -/
theorem c5_no_empty_channel (impl : Impl) (st : SuperEvents) (e : String)
    (arg : JSVal) (cb : Nat) (h : noEmptyChannel st) :
    noEmptyChannel SuperEvents.empty ∧
    noEmptyChannel (st.on e cb).1 ∧
    noEmptyChannel (st.once e cb).1 ∧
    noEmptyChannel (st.off e cb) ∧
    noEmptyChannel (SuperEvents.emit impl st e arg).state ∧
    noEmptyChannel (SuperEvents.call impl st e arg).state ∧
    noEmptyChannel (SuperEvents.callAsync impl st e arg).state ∧
    noEmptyChannel (SuperEvents.first impl st e arg).state ∧
    noEmptyChannel (SuperEvents.firstAsync impl st e arg).state ∧
    noEmptyChannel (SuperEventsV3.emit impl st e arg).state ∧
    noEmptyChannel (SuperEventsV3.emitAsync impl st e arg).state ∧
    noEmptyChannel (SuperEventsV3.clear st) := by
  refine ⟨?_, addListener_noEmpty st e cb false h,
    addListener_noEmpty st e cb true h, off_noEmpty st e cb h,
    emit_noEmpty impl st e arg h, call_noEmpty impl st e arg h,
    emit_noEmpty impl st e arg h, call_noEmpty impl st e arg h,
    emit_noEmpty impl st e arg h, v3emit_noEmpty impl st e arg h,
    v3emitAsync_noEmpty impl st e arg h, ?_⟩
  · intro p hp
    simp [SuperEvents.empty] at hp
  · intro p hp
    simp [SuperEventsV3.clear] at hp

/-- C5 witness: a one-listener registry; after a throwing call dispatch and
after off drains the channel, no event name is bound to an empty list. -/
theorem c5_witness :
    noEmptyChannel (registerAll "e" [0]) ∧
    noEmptyChannel
      (SuperEvents.call implThrow (registerAll "e" [0]) "e" .vnull).state ∧
    noEmptyChannel ((registerAll "e" [0]).off "e" 0) := by
  have h : noEmptyChannel (registerAll "e" [0]) := by
    unfold noEmptyChannel
    decide
  have hall := c5_no_empty_channel implThrow (registerAll "e" [0]) "e"
    .vnull 0 h
  exact ⟨h, hall.2.2.2.2.2.1, hall.2.2.2.1⟩

/-- C6 counterexample: the unsubscribe closure is NOT idempotent when the
same callback was registered twice on the event: after one invocation has
removed the first entry, a second invocation removes the remaining
duplicate entry, so the second invocation is not a no-op. -/
theorem c6_counterexample :
    ¬ ((SuperEvents.empty.on "e" 0).2
          ((SuperEvents.empty.on "e" 0).2
            (((SuperEvents.empty.on "e" 0).1).on "e" 0).1)
        = (SuperEvents.empty.on "e" 0).2
            ((((SuperEvents.empty.on "e" 0).1).on "e" 0).1)) := by decide

/-- C6 amended: the unsubscribe closure returned by on/once is exactly the
operation off(eventName, callback); off is a no-op on an unknown event
name, a no-op when the callback is not registered on a non-empty channel,
and otherwise removes the first entry whose stored callback is
reference-identical (deleting the channel if that empties it); and on a
well-formed registry the closure is idempotent provided the callback has
at most one registered entry on that event — a second invocation after the
entry is gone changes nothing. (With duplicate registrations of the same
callback a second invocation removes the other entry, see the
counterexample.) -/
theorem c6_unsubscribe_amended (st : SuperEvents) (e : String) (cb : Nat)
    (s : SuperEvents) :
    ((st.on e cb).2 s = s.off e cb) ∧
    ((st.once e cb).2 s = s.off e cb) ∧
    (mapHas st.events e = false → st.off e cb = st) ∧
    ((∀ q ∈ mapGet st.events e, q.callback ≠ cb) →
      mapGet st.events e ≠ [] → st.off e cb = st) ∧
    (∀ pre en post, mapGet st.events e = pre ++ en :: post →
      en.callback = cb → (∀ q ∈ pre, q.callback ≠ cb) →
      st.off e cb = if pre ++ post = [] then ⟨mapDelete st.events e⟩
        else ⟨mapSet st.events e (pre ++ post)⟩) ∧
    (noEmptyChannel st → keysNodup st →
      chanCount (mapGet st.events e) cb ≤ 1 →
      (st.off e cb).off e cb = st.off e cb) := by
  refine ⟨rfl, rfl, off_unknown st e cb, ?_, ?_, ?_⟩
  · intro hno hne
    exact off_not_found st e cb (mapHas_of_mapGet_ne_nil st.events e hne)
      hno hne
  · intro pre en post hch hen hpre
    exact off_removes_first st e cb pre en post hch hen hpre
  · intro hne hnd hcount
    by_cases hhas : mapHas st.events e = false
    · rw [off_unknown st e cb hhas, off_unknown st e cb hhas]
    · have hhas' : mapHas st.events e = true := by simpa using hhas
      have hchne : mapGet st.events e ≠ [] :=
        hne (e, mapGet st.events e) (mapGet_mem st.events e hhas')
      by_cases h0 : chanCount (mapGet st.events e) cb = 0
      · have hno := (chanCount_eq_zero (mapGet st.events e) cb).mp h0
        rw [off_not_found st e cb hhas' hno hchne,
          off_not_found st e cb hhas' hno hchne]
      · have h1 : chanCount (mapGet st.events e) cb = 1 := by omega
        obtain ⟨pre, en, post, hsplit, hen, hpre, hpost⟩ :=
          chanCount_one_split (mapGet st.events e) cb h1
        have hoff := off_removes_first st e cb pre en post hsplit hen hpre
        by_cases hnil : pre ++ post = []
        · rw [hoff]
          simp only [hnil, if_true]
          exact off_unknown _ e cb (mapHas_mapDelete_self st.events e hnd)
        · rw [hoff]
          simp only [hnil, if_false]
          apply off_not_found
          · exact mapHas_mapSet_self st.events e (pre ++ post)
          · intro q hq
            rw [show (⟨mapSet st.events e (pre ++ post)⟩ :
                SuperEvents).events = mapSet st.events e (pre ++ post)
                from rfl, mapGet_mapSet_self] at hq
            rcases List.mem_append.mp hq with hq | hq
            · exact hpre q hq
            · exact hpost q hq
          · rw [show (⟨mapSet st.events e (pre ++ post)⟩ :
                SuperEvents).events = mapSet st.events e (pre ++ post)
                from rfl, mapGet_mapSet_self]
            exact hnil

/-- C6 witness: with a single registration of callback 0 on "e" the
unsubscribe closure equals off, and invoking off twice equals invoking it
once (idempotence under at-most-one matching entry). -/
theorem c6_witness :
    ((SuperEvents.empty.on "e" 0).2 (registerAll "e" [0])
        = (registerAll "e" [0]).off "e" 0) ∧
    ((registerAll "e" [0]).off "e" 0).off "e" 0
        = (registerAll "e" [0]).off "e" 0 := by
  have h := c6_unsubscribe_amended (registerAll "e" [0]) "e" 0
    (registerAll "e" [0])
  refine ⟨(c6_unsubscribe_amended SuperEvents.empty "e" 0
    (registerAll "e" [0])).1, ?_⟩
  exact h.2.2.2.2.2 (by unfold noEmptyChannel; decide)
    (by unfold keysNodup; decide) (by decide)

/-- C7: first performs a call dispatch and returns the leftmost result that
is neither null nor undefined (or undefined when no result qualifies);
firstAsync, when the dispatch invoked exactly one listener, returns that
single settled result directly, without the null/undefined filter. -/
theorem c7_first_semantics (impl : Impl) (st : SuperEvents) (e : String)
    (arg : JSVal) :
    (∀ rs, (SuperEvents.call impl st e arg).result = .ok rs →
      ∃ v, (SuperEvents.first impl st e arg).result = .ok v ∧
        isLeftmostNonNullish rs v) ∧
    (∀ rs, (SuperEvents.emit impl st e arg).result = .ok rs →
      rs.length = 1 →
      (SuperEvents.firstAsync impl st e arg).result
        = .ok (rs.getD 0 .vundef)) := by
  constructor
  · intro rs hrs
    refine ⟨(rs.find? jsNotNullish).getD .vundef, ?_, ?_⟩
    · show (SuperEvents.call impl st e arg).result.map
        (fun results => ((results.find? jsNotNullish).getD .vundef)) = _
      rw [hrs]
      rfl
    · cases hf : rs.find? jsNotNullish with
      | some v =>
        obtain ⟨pre, post, heq, hpre, hv⟩ := find?_split jsNotNullish rs v hf
        simp only [Option.getD_some]
        exact Or.inl ⟨pre, post, heq, hpre, hv⟩
      | none =>
        simp only [Option.getD_none]
        refine Or.inr ⟨rfl, ?_⟩
        intro r hr
        have := List.find?_eq_none.mp hf r hr
        simpa using this
  · intro rs hrs hlen
    show (SuperEvents.emit impl st e arg).result.map
      (fun results => if results.length == 1 then results.getD 0 .vundef
        else ((results.find? jsNotNullish).getD .vundef)) = _
    rw [hrs]
    simp [Except.map, hlen]

/-- C7 witness: a single listener returning null on "e": first filters the
null away and yields the absent sentinel (undefined), while firstAsync,
seeing exactly one result, returns the raw null. -/
theorem c7_witness :
    (SuperEvents.call implNull (registerAll "e" [0]) "e" .vundef).result
        = .ok [.vnull] ∧
    (∃ v, (SuperEvents.first implNull (registerAll "e" [0]) "e"
        .vundef).result = .ok v ∧ isLeftmostNonNullish [.vnull] v) ∧
    (SuperEvents.first implNull (registerAll "e" [0]) "e" .vundef).result
        = .ok .vundef ∧
    (SuperEvents.firstAsync implNull (registerAll "e" [0]) "e"
        .vundef).result = .ok .vnull := by
  have h := c7_first_semantics implNull (registerAll "e" [0]) "e" .vundef
  refine ⟨by decide, h.1 [.vnull] (by decide), by decide, ?_⟩
  exact (h.2 [.vnull] (by decide) (by decide)).trans (by decide)

/-- C8: on a channel holding exactly one listener, call and callAsync both
return a one-element ordered sequence holding that listener's (settled)
result; the value is never unwrapped into a bare result. -/
theorem c8_single_listener_list (impl : Impl) (st : SuperEvents)
    (e : String) (arg : JSVal) (en : ListenerEntry) (v : JSVal)
    (hch : mapGet st.events e = [en])
    (himpl : impl en.callback arg = .ok v) :
    (v.isPromise = false →
      (SuperEvents.call impl st e arg).result = .ok [v]) ∧
    (SuperEvents.callAsync impl st e arg).result = .ok [v.settle] := by
  have hhas : mapHas st.events e = true := by
    apply mapHas_of_mapGet_ne_nil
    rw [hch]
    simp
  constructor
  · intro hv
    have hh : ∀ q ∈ mapGet st.events e,
        impl q.callback arg = .ok ((fun _ => v) q.callback) ∧
        (((fun _ => v) q.callback)).isPromise = false := by
      rw [hch]
      intro q hq
      simp only [List.mem_singleton] at hq
      subst hq
      exact ⟨himpl, hv⟩
    have h := (call_all_ok impl st e arg (fun _ => v) hh).1
    rw [hch] at h
    simpa using h
  · show (SuperEvents.emit impl st e arg).result = .ok [v.settle]
    have hh : ∀ q ∈ mapGet st.events e,
        impl q.callback arg = .ok ((fun _ => v) q.callback) := by
      rw [hch]
      intro q hq
      simp only [List.mem_singleton] at hq
      subst hq
      exact himpl
    have hl := emitLoop_all_ok impl arg (fun _ => v) (mapGet st.events e) hh
    rw [hch] at hl
    simp [SuperEvents.emit, hhas, hch, hl]

/-- C8 witness: a single listener returning 3 makes call return the list
[3] (not a bare 3); a single listener returning a promise of 9 makes
callAsync return the list [9]. -/
theorem c8_witness :
    (SuperEvents.call implNum (registerAll "s" [0]) "s" .vnull).result
        = .ok [.vnum 3] ∧
    (SuperEvents.callAsync implProm (registerAll "s" [0]) "s"
        .vnull).result = .ok [.vnum 9] := by
  have h1 := c8_single_listener_list implNum (registerAll "s" [0]) "s"
    .vnull ⟨0, false⟩ (.vnum 3) (by decide) rfl
  have h2 := c8_single_listener_list implProm (registerAll "s" [0]) "s"
    .vnull ⟨0, false⟩ (.vpromise (.vnum 9)) (by decide) rfl
  exact ⟨h1.1 rfl, h2.2.trans (by decide)⟩

/-- C9: on an event name with no channel in the registry, every dispatch
returns the empty result (empty sequence; the absent sentinel undefined for
the first-lookups; a bare completion for the fire-and-forget variants)
without error, invokes nothing, and leaves the registry state unchanged —
in particular no channel is created for that name. -/
theorem c9_unknown_event_noop (impl : Impl) (st : SuperEvents) (e : String)
    (arg : JSVal) (h : mapHas st.events e = false) :
    SuperEvents.call impl st e arg = ⟨.ok [], st, []⟩ ∧
    SuperEvents.emit impl st e arg = ⟨.ok [], st, []⟩ ∧
    SuperEvents.callAsync impl st e arg = ⟨.ok [], st, []⟩ ∧
    SuperEvents.first impl st e arg = ⟨.ok .vundef, st, []⟩ ∧
    SuperEvents.firstAsync impl st e arg = ⟨.ok .vundef, st, []⟩ ∧
    SuperEventsV3.emit impl st e arg = ⟨.ok (), st, []⟩ ∧
    SuperEventsV3.emitAsync impl st e arg = ⟨.ok (), st, []⟩ := by
  refine ⟨?_, ?_, ?_, ?_, ?_, ?_, ?_⟩ <;>
    simp [SuperEvents.call, SuperEvents.emit, SuperEvents.callAsync,
      SuperEvents.first, SuperEvents.firstAsync, SuperEventsV3.emit,
      SuperEventsV3.emitAsync, h, Except.map]

/-- C9 witness: dispatching "x" on a fresh registry returns empty results
and leaves the registry empty. -/
theorem c9_witness :
    SuperEvents.call implNum SuperEvents.empty "x" .vnull
        = ⟨.ok [], SuperEvents.empty, []⟩ ∧
    SuperEvents.first implNum SuperEvents.empty "x" .vnull
        = ⟨.ok .vundef, SuperEvents.empty, []⟩ ∧
    SuperEvents.firstAsync implNum SuperEvents.empty "x" .vnull
        = ⟨.ok .vundef, SuperEvents.empty, []⟩ := by
  have h := c9_unknown_event_noop implNum SuperEvents.empty "x" .vnull rfl
  exact ⟨h.1, h.2.2.2.1, h.2.2.2.2.1⟩

/-- C10: registering the same callback reference twice via on yields two
entries in registration order; a dispatch invokes the callback once per
entry (twice in total, collecting its result twice); a single off — and the
unsubscribe closure, which is exactly off — removes only the first matching
entry, leaving the second registered. -/
theorem c10_duplicate_registration (impl : Impl) (st : SuperEvents)
    (e : String) (cb : Nat) (arg : JSVal) (v : JSVal)
    (hhas : mapHas st.events e = false)
    (himpl : impl cb arg = .ok v) (hv : v.isPromise = false) :
    mapGet ((((st.on e cb).1).on e cb).1).events e
        = [⟨cb, false⟩, ⟨cb, false⟩] ∧
    (SuperEvents.call impl (((st.on e cb).1).on e cb).1 e arg).result
        = .ok [v, v] ∧
    (SuperEvents.call impl (((st.on e cb).1).on e cb).1 e arg).invoked
        = [cb, cb] ∧
    ((((st.on e cb).1).on e cb).1).off e cb
        = ⟨mapSet ((((st.on e cb).1).on e cb).1).events e [⟨cb, false⟩]⟩ ∧
    ((st.on e cb).2 ((((st.on e cb).1).on e cb).1)
        = ((((st.on e cb).1).on e cb).1).off e cb) := by
  have hch : mapGet ((((st.on e cb).1).on e cb).1).events e
      = [⟨cb, false⟩, ⟨cb, false⟩] := by
    rw [on_channel, on_channel, mapGet_eq_nil_of_not_has st.events e hhas]
    rfl
  have hh : ∀ q ∈ mapGet ((((st.on e cb).1).on e cb).1).events e,
      impl q.callback arg = .ok ((fun _ => v) q.callback) ∧
      (((fun _ => v) q.callback)).isPromise = false := by
    rw [hch]
    intro q hq
    rcases List.mem_cons.mp hq with hq | hq
    · subst hq
      exact ⟨himpl, hv⟩
    · simp only [List.mem_singleton] at hq
      subst hq
      exact ⟨himpl, hv⟩
  have hc := call_all_ok impl (((st.on e cb).1).on e cb).1 e arg
    (fun _ => v) hh
  rw [hch] at hc
  refine ⟨hch, ?_, ?_, ?_, rfl⟩
  · exact hc.1.trans (by rfl)
  · exact hc.2.trans (by rfl)
  · have hoff := off_removes_first (((st.on e cb).1).on e cb).1 e cb
      [] ⟨cb, false⟩ [⟨cb, false⟩] hch rfl (by simp)
    rw [hoff]
    simp

/-- C10 witness: callback 0 registered twice on "d": two entries, call
returns [3, 3] invoking it twice, and one off (or one invocation of the
unsubscribe closure) leaves exactly one entry registered. -/
theorem c10_witness :
    mapGet ((((SuperEvents.empty.on "d" 0).1).on "d" 0).1).events "d"
        = [⟨0, false⟩, ⟨0, false⟩] ∧
    (SuperEvents.call implNum (((SuperEvents.empty.on "d" 0).1).on "d"
        0).1 "d" .vnull).result = .ok [.vnum 3, .vnum 3] ∧
    (SuperEvents.call implNum (((SuperEvents.empty.on "d" 0).1).on "d"
        0).1 "d" .vnull).invoked = [0, 0] ∧
    mapGet (((((SuperEvents.empty.on "d" 0).1).on "d" 0).1).off "d"
        0).events "d" = [⟨0, false⟩] := by
  have h := c10_duplicate_registration implNum SuperEvents.empty "d" 0
    .vnull (.vnum 3) rfl rfl rfl
  refine ⟨h.1, h.2.1, h.2.2.1, ?_⟩
  rw [h.2.2.2.1]
  decide
